import Mathlib

/-!
Verification of the WordleSolver repository (`wordle.py`, `top_starters.py`).

Words are modelled as lists of characters; the Python scripts index the first
five characters of every word.  Machine integers are modelled as `ℕ` (Python
integers are unbounded, and all feedback encodings fit in 10 bits).  Real
(floating-point) entropy values are modelled as real numbers.
-/

abbrev Word := List Char

/-! ## FeedbackCodec: `wordle.py` `get_feedback` (packed-integer encoding) -/

/-- One iteration of the first pass of `wordle.py`'s `get_feedback`:
mark green (bits `10`) at index `i` when the guess letter equals the
still-available target letter there, consuming that target letter. -/
def p1step (guess : Word) (st : ℕ × List (Option Char)) (i : ℕ) :
    ℕ × List (Option Char) :=
  if st.2.getD i none = some (guess.getD i default) then
    (st.1 ||| (2 <<< (2 * (4 - i))), st.2.set i none)
  else st

/-- One iteration of the second pass of `wordle.py`'s `get_feedback`:
if position `i` is not green, mark yellow (bits `01`) when the guess letter
still occurs among the unconsumed target letters, consuming the first such
occurrence. -/
def p2step (guess : Word) (st : ℕ × List (Option Char)) (i : ℕ) :
    ℕ × List (Option Char) :=
  if (st.1 &&& (3 <<< (2 * (4 - i)))) >>> (2 * (4 - i)) = 0 then
    if some (guess.getD i default) ∈ st.2 then
      (st.1 ||| (1 <<< (2 * (4 - i))),
       st.2.set (st.2.indexOf (some (guess.getD i default))) none)
    else st
  else st

/-- `wordle.py` `get_feedback`: the feedback pattern of `guess` against
`target`, packed as an integer with two bits per position (`00` gray,
`01` yellow, `10` green), most significant position first. -/
def get_feedback (guess target : Word) : ℕ :=
  ((List.range 5).foldl (p2step guess)
    ((List.range 5).foldl (p1step guess) (0, target.map some))).1

/-! ## FeedbackCodec: `top_starters.py` `get_feedback` (per-position tuple) -/

/-- One iteration of the first pass of `top_starters.py`'s `get_feedback`. -/
def tsp1step (guess : Word) (st : List ℕ × List (Option Char)) (i : ℕ) :
    List ℕ × List (Option Char) :=
  if st.2.getD i none = some (guess.getD i default) then
    (st.1.set i 2, st.2.set i none)
  else st

/-- One iteration of the second pass of `top_starters.py`'s `get_feedback`. -/
def tsp2step (guess : Word) (st : List ℕ × List (Option Char)) (i : ℕ) :
    List ℕ × List (Option Char) :=
  if st.1.getD i 0 = 0 ∧ some (guess.getD i default) ∈ st.2 then
    (st.1.set i 1, st.2.set (st.2.indexOf (some (guess.getD i default))) none)
  else st

/-- `top_starters.py` `get_feedback`: the feedback of `guess` against `target`
as a five-entry list with `0` = gray, `1` = yellow, `2` = green. -/
def get_feedback_ts (guess target : Word) : List ℕ :=
  ((List.range 5).foldl (tsp2step guess)
    ((List.range 5).foldl (tsp1step guess)
      (List.replicate 5 0, target.map some))).1

/-- Packs a five-entry per-position feedback list into an integer, two bits
per position, most significant position first. -/
def pack2 (l : List ℕ) : ℕ := l.foldl (fun acc v => 4 * acc + v) 0

/-- The two-bit field of the packed feedback `fb` at position `i`
(most significant position first). -/
def fbField (i fb : ℕ) : ℕ := (fb >>> (2 * (4 - i))) % 4

/-! ## CandidateFilter: `wordle.py` `filter_possible_words` -/

/-- `wordle.py` `filter_possible_words`: keeps, in order, exactly the words
whose feedback for `guess` equals the observed pattern. -/
def filter_possible_words (guess : Word) (feedback : ℕ)
    (possible_words : List Word) : List Word :=
  possible_words.filter (fun w => decide (get_feedback guess w = feedback))

/-! ## Equivalence of the two feedback implementations -/

/-- Relation between an execution state of `wordle.py`'s `get_feedback`
and the corresponding state of `top_starters.py`'s `get_feedback`: the packed
integer packs the per-position list, and the remaining target letters agree. -/
def PackRel (st : ℕ × List (Option Char)) (stl : List ℕ × List (Option Char)) :
    Prop :=
  st.1 = pack2 stl.1 ∧ st.2 = stl.2 ∧ stl.1.length = 5 ∧ ∀ x ∈ stl.1, x < 4

/-! ## First pass in closed form, and the duplicate-letter counting invariant -/

/-- Value of position `i` after the first (green) pass: `2` when the guess
letter matches the target letter, else `0`. -/
def greenMark (g t : Char) : ℕ := if t = g then 2 else 0

/-- Remaining target letter at position `i` after the first (green) pass. -/
def greenRem (g t : Char) : Option Char := if t = g then none else some t

/-- Number of positions of the feedback list marked green or yellow whose
guess letter is `c`. -/
def gyMarks (guess : Word) (fbl : List ℕ) (c : Char) : ℕ :=
  ((Finset.range 5).filter (fun i =>
    (fbl.getD i 0 = 2 ∨ fbl.getD i 0 = 1) ∧ guess.getD i default = c)).card

/-- Invariant of the second (yellow) pass: the length of the feedback list,
the characterisation of greens, and the counting identity that every green or
yellow mark for a letter consumed one occurrence of it in the target. -/
def C2Inv (guess target : Word) (st : List ℕ × List (Option Char)) : Prop :=
  st.1.length = 5 ∧
  (∀ i, i < 5 → (st.1.getD i 0 = 2 ↔ target.getD i default = guess.getD i default)) ∧
  (∀ c : Char, gyMarks guess st.1 c + st.2.count (some c) = target.count c)

/-! ## EntropyEvaluator: `wordle.py` `calculate_entropy` -/

/-- `wordle.py` `calculate_entropy`: Shannon entropy (bits) of the partition
of `possible_words` by feedback pattern for `guess`.  The sum runs over the
distinct patterns; groups of size zero never occur.  The Python float
arithmetic is modelled over the reals. -/
noncomputable def calculate_entropy (guess : Word) (possible_words : List Word) : ℝ :=
  -(∑ p ∈ (possible_words.map (get_feedback guess)).toFinset,
      (((possible_words.map (get_feedback guess)).count p : ℝ) /
          (possible_words.length : ℝ)) *
        Real.logb 2 (((possible_words.map (get_feedback guess)).count p : ℝ) /
          (possible_words.length : ℝ)))

/-! ## GuessSelector: `wordle.py` `select_best_guess_parallel`

The Python function builds `args = [(guess, possible_words) for guess in
possible_words]` — iterating over `possible_words`, not over its `word_list`
parameter — maps `calculate_entropy` over it (the process pool preserves
argument order), and takes `max(results, key=...)`, which returns the first
pair attaining the maximal entropy.  Python's `max` raises on an empty
sequence, modelled by `Option`. -/
noncomputable def select_best_guess_parallel
    (word_list possible_words : List Word) : Option Word :=
  let results := possible_words.map
    (fun guess => (guess, calculate_entropy guess possible_words))
  match results with
  | [] => none
  | x :: xs =>
    some ((xs.foldl (fun best p => if best.2 < p.2 then p else best) x).1)

/-! ## FeedbackCodec: `wordle.py` `parse_feedback`

Models the Python pipeline `feedback_str.strip().lower().replace(',', ' ')
.split()` followed by token validation against `feedback_map`, the count
check, and the packing loop.  Python string methods operate on the character
list; `str.split()` splits on whitespace runs and discards empty chunks;
exceptions are modelled by `Except.error`. -/

/-- The whitespace characters recognised by Python's `str.split` and
`str.strip`: space, tab, newline, carriage return, vertical tab, form
feed. -/
def pyWhitespace (c : Char) : Bool :=
  c == ' ' || c == '\t' || c == '\n' || c == '\r' ||
    c == Char.ofNat 11 || c == Char.ofNat 12

/-- Python `str.strip`: drop leading and trailing whitespace. -/
def pyStrip (s : List Char) : List Char :=
  ((s.dropWhile pyWhitespace).reverse.dropWhile pyWhitespace).reverse

/-- Python `str.split()` with no separator: split on whitespace runs and
discard empty chunks. -/
def pySplit (s : List Char) : List (List Char) :=
  (s.splitOnP pyWhitespace).filter (fun t => !t.isEmpty)

/-- The token table of `wordle.py`'s `parse_feedback`. -/
def feedback_map : List (List Char × List Char) :=
  [("g".toList, "green".toList), ("y".toList, "yellow".toList),
   ("b".toList, "gray".toList), ("gray".toList, "gray".toList),
   ("green".toList, "green".toList), ("yellow".toList, "yellow".toList)]

/-- Tokenisation performed by `parse_feedback` before the table lookup:
strip, lowercase, replace commas by spaces, split on whitespace. -/
def normalize_feedback_str (s : List Char) : List (List Char) :=
  pySplit (((pyStrip s).map Char.toLower).map (fun c => if c = ',' then ' ' else c))

/-- Lookup of one token, raising `ValueError` on an unknown token. -/
def lookup_feedback_tok (t : List Char) : Except String (List Char) :=
  match List.lookup t feedback_map with
  | some v => Except.ok v
  | none => Except.error "Invalid feedback token"

/-- Count check and packing loop of `parse_feedback`: requires exactly five
canonical tokens, then packs green as `10` and yellow as `01`, most
significant position first. -/
def pack_feedback (feedback : List (List Char)) : Except String ℕ :=
  if feedback.length = 5 then
    Except.ok ((List.range 5).foldl (fun acc i =>
      if feedback.getD i [] = "green".toList then
        acc ||| (2 <<< (2 * (4 - i)))
      else if feedback.getD i [] = "yellow".toList then
        acc ||| (1 <<< (2 * (4 - i)))
      else acc) 0)
  else Except.error "Feedback must consist of exactly 5 tokens."

/-- `wordle.py` `parse_feedback`: validates the tokens in order (first bad
token raises), then checks the count and packs the pattern. -/
def parse_feedback (feedback_str : List Char) : Except String ℕ :=
  match (normalize_feedback_str feedback_str).mapM lookup_feedback_tok with
  | Except.error e => Except.error e
  | Except.ok feedback => pack_feedback feedback

/-- The token vocabulary named by the specification. -/
def feedback_vocab : List (List Char) :=
  ["g".toList, "y".toList, "b".toList, "gray".toList, "green".toList,
   "yellow".toList]

/-- The two-bit code a feedback token stands for. -/
def tokCode (t : List Char) : ℕ :=
  if t = "g".toList ∨ t = "green".toList then 2
  else if t = "y".toList ∨ t = "yellow".toList then 1
  else 0

/-- The two-bit value that the packing loop assigns to one canonical
token. -/
def colorCode (t : List Char) : ℕ :=
  if t = "green".toList then 2 else if t = "yellow".toList then 1 else 0

/-! ## FeedbackCodec memoization: `feedback_cache` / `get_feedback`

`wordle.py` keeps a process-wide dictionary `feedback_cache` keyed by
`(guess, target)`; `get_feedback` returns the cached value when present and
otherwise computes, stores and returns it.  The dictionary is modelled as an
association list (most recent insertion first), and a call history as an
explicit list of `(guess, target)` calls. -/

abbrev FeedbackCache := List ((Word × Word) × ℕ)

/-- One call of the cached `get_feedback`: returns the cached value when the
pair is present, otherwise computes the feedback and stores it. -/
def get_feedback_cached (cache : FeedbackCache) (guess target : Word) :
    ℕ × FeedbackCache :=
  match List.lookup (guess, target) cache with
  | some v => (v, cache)
  | none => (get_feedback guess target,
      ((guess, target), get_feedback guess target) :: cache)

/-- Runs a history of calls through the cached `get_feedback`, returning the
results in order together with the final cache. -/
def run_feedback_calls : FeedbackCache → List (Word × Word) →
    List ℕ × FeedbackCache
  | cache, [] => ([], cache)
  | cache, c :: cs =>
    let r := get_feedback_cached cache c.1 c.2
    let rest := run_feedback_calls r.2 cs
    (r.1 :: rest.1, rest.2)

/-- A cache is well formed when every stored value is the pure feedback of
its key. -/
def CacheWF (cache : FeedbackCache) : Prop :=
  ∀ g t v, List.lookup (g, t) cache = some v → v = get_feedback g t

/-! ## EntropyCache: `wordle.py` cache persistence

The two on-disk artifacts (`wordlist_hash.txt` and `initial_entropy.pkl`)
are modelled as an explicit file-system state: `none` means the file is
missing; `some none` for the entropy file means it exists but does not
unpickle (a corrupt blob). -/

structure FS where
  hashFile : Option (List Char)
  entropyFile : Option (Option (List (Word × ℝ)))

/-- `wordle.py` `compute_wordlist_hash`: a SHA-256 digest over the
concatenated words.  The digest is modelled as the concatenated character
stream itself — an injective abstraction of the hash; only equality of
digests is ever used. -/
def compute_wordlist_hash (word_list : List Word) : List Char :=
  word_list.flatten

/-- `wordle.py` `save_wordlist_hash`: overwrite the hash file. -/
def save_wordlist_hash (wordlist_hash : List Char) (fs : FS) : FS :=
  { fs with hashFile := some wordlist_hash }

/-- `wordle.py` `load_wordlist_hash`: `None` when the file is missing,
otherwise the stripped file content. -/
def load_wordlist_hash (fs : FS) : Option (List Char) :=
  match fs.hashFile with
  | none => none
  | some s => some (pyStrip s)

/-- `wordle.py` `is_entropy_cache_valid`: stored hash equals the current
pool's hash and the entropy file exists. -/
def is_entropy_cache_valid (word_list : List Word) (fs : FS) : Bool :=
  load_wordlist_hash fs == some (compute_wordlist_hash word_list) &&
    fs.entropyFile.isSome

/-- `wordle.py` `load_initial_entropy`: opening a missing file raises, and
unpickling a corrupt blob raises; neither is caught anywhere. -/
def load_initial_entropy (fs : FS) : Except String (List (Word × ℝ)) :=
  match fs.entropyFile with
  | none => Except.error "FileNotFoundError"
  | some none => Except.error "UnpicklingError"
  | some (some entropy_dict) => Except.ok entropy_dict

/-- `wordle.py` `compute_and_save_initial_entropy`: computes the entropy of
every pool word against the full pool (results arrive in pool order), writes
the entropy table, then writes the pool hash. -/
noncomputable def compute_and_save_initial_entropy (word_list : List Word)
    (fs : FS) : List (Word × ℝ) × FS :=
  let entropy_dict := word_list.map
    (fun guess => (guess, calculate_entropy guess word_list))
  let fs1 : FS := { fs with entropyFile := some (some entropy_dict) }
  let fs2 := save_wordlist_hash (compute_wordlist_hash word_list) fs1
  (entropy_dict, fs2)

/-- `wordle.py` `get_initial_entropy`: loads the table when the cache is
valid, otherwise recomputes and rewrites it. -/
noncomputable def get_initial_entropy (word_list : List Word) (fs : FS) :
    Except String (List (Word × ℝ) × FS) :=
  if is_entropy_cache_valid word_list fs then
    match load_initial_entropy fs with
    | Except.error e => Except.error e
    | Except.ok entropy_dict => Except.ok (entropy_dict, fs)
  else
    Except.ok (compute_and_save_initial_entropy word_list fs)

/-! ## Theorems -/

/-! ## Basic sanity facts used across several proofs -/

theorem range5_eq : List.range 5 = [0, 1, 2, 3, 4] := rfl

theorem getD_set_ne {α : Type} (l : List α) {i j : ℕ} (hij : i ≠ j)
    (a d : α) : (l.set i a).getD j d = l.getD j d := by
  simp [List.getD_eq_getElem?_getD, List.getElem?_set_ne hij]

theorem getD_set_self {α : Type} (l : List α) {i : ℕ} (hi : i < l.length)
    (a d : α) : (l.set i a).getD i d = a := by
  simp [List.getD_eq_getElem?_getD, List.getElem?_set_self hi]

/-! ## Packed-integer arithmetic bridges

The two feedback encodings differ only in how five small fields are stored:
as a packed integer (bit operations) or as a five-entry list.  The following
lemmas, checked by exhaustive evaluation over the bounded field values,
relate the bit operations of `wordle.py` to list operations. -/

theorem pack2_or_set_fin :
    ∀ a b c d e : Fin 4, ∀ i : Fin 5, ∀ v : Fin 4,
      [(a : ℕ), b, c, d, e].getD i 0 = 0 →
      pack2 [(a : ℕ), b, c, d, e] ||| ((v : ℕ) <<< (2 * (4 - (i : ℕ)))) =
        pack2 ([(a : ℕ), b, c, d, e].set i v) := by decide

theorem mask_pack2_fin :
    ∀ a b c d e : Fin 4, ∀ i : Fin 5,
      (pack2 [(a : ℕ), b, c, d, e] &&& (3 <<< (2 * (4 - (i : ℕ))))) >>>
          (2 * (4 - (i : ℕ))) =
        [(a : ℕ), b, c, d, e].getD i 0 := by decide

theorem fbField_pack2_fin :
    ∀ a b c d e : Fin 4, ∀ i : Fin 5,
      fbField i (pack2 [(a : ℕ), b, c, d, e]) = [(a : ℕ), b, c, d, e].getD i 0 := by
  decide

theorem pack2_or_set (l : List ℕ) (hl : l.length = 5) (hb : ∀ x ∈ l, x < 4)
    {i v : ℕ} (hi : i < 5) (hv : v < 4) (h0 : l.getD i 0 = 0) :
    pack2 l ||| (v <<< (2 * (4 - i))) = pack2 (l.set i v) := by
  match l, hl with
  | [a, b, c, d, e], _ =>
    exact pack2_or_set_fin ⟨a, hb a (by simp)⟩ ⟨b, hb b (by simp)⟩
      ⟨c, hb c (by simp)⟩ ⟨d, hb d (by simp)⟩ ⟨e, hb e (by simp)⟩
      ⟨i, hi⟩ ⟨v, hv⟩ h0

theorem mask_pack2 (l : List ℕ) (hl : l.length = 5) (hb : ∀ x ∈ l, x < 4)
    {i : ℕ} (hi : i < 5) :
    (pack2 l &&& (3 <<< (2 * (4 - i)))) >>> (2 * (4 - i)) = l.getD i 0 := by
  match l, hl with
  | [a, b, c, d, e], _ =>
    exact mask_pack2_fin ⟨a, hb a (by simp)⟩ ⟨b, hb b (by simp)⟩
      ⟨c, hb c (by simp)⟩ ⟨d, hb d (by simp)⟩ ⟨e, hb e (by simp)⟩ ⟨i, hi⟩

theorem fbField_pack2 (l : List ℕ) (hl : l.length = 5) (hb : ∀ x ∈ l, x < 4)
    {i : ℕ} (hi : i < 5) : fbField i (pack2 l) = l.getD i 0 := by
  match l, hl with
  | [a, b, c, d, e], _ =>
    exact fbField_pack2_fin ⟨a, hb a (by simp)⟩ ⟨b, hb b (by simp)⟩
      ⟨c, hb c (by simp)⟩ ⟨d, hb d (by simp)⟩ ⟨e, hb e (by simp)⟩ ⟨i, hi⟩

theorem packRel_p1step (g : Word) (st : ℕ × List (Option Char))
    (stl : List ℕ × List (Option Char)) {i : ℕ} (hi : i < 5)
    (h0 : stl.1.getD i 0 = 0) (hrel : PackRel st stl) :
    PackRel (p1step g st i) (tsp1step g stl i) := by
  obtain ⟨h1, h2, h3, h4⟩ := hrel
  unfold p1step tsp1step
  rw [h2]
  split
  · refine ⟨?_, rfl, by simp [h3], ?_⟩
    · rw [h1]
      exact pack2_or_set stl.1 h3 h4 hi (by omega) h0
    · intro x hx
      rcases List.mem_or_eq_of_mem_set hx with h | h
      · exact h4 x h
      · omega
  · exact ⟨h1, h2, h3, h4⟩

theorem packRel_p1fold (g : Word) :
    ∀ L : List ℕ, L.Nodup → (∀ i ∈ L, i < 5) →
      ∀ st stl, PackRel st stl → (∀ i ∈ L, stl.1.getD i 0 = 0) →
        PackRel (L.foldl (p1step g) st) (L.foldl (tsp1step g) stl) := by
  intro L
  induction L with
  | nil => exact fun _ _ st stl h _ => h
  | cons i L ih =>
    intro hnd hlt st stl hrel hz
    simp only [List.foldl_cons]
    have hi : i < 5 := hlt i (List.mem_cons_self i L)
    refine ih (List.nodup_cons.1 hnd).2 (fun j hj => hlt j (List.mem_cons_of_mem i hj))
      _ _ (packRel_p1step g st stl hi (hz i (List.mem_cons_self i L)) hrel) ?_
    intro j hj
    have hij : i ≠ j := fun h => (List.nodup_cons.1 hnd).1 (h ▸ hj)
    have hzj := hz j (List.mem_cons_of_mem i hj)
    unfold tsp1step
    split
    · exact (getD_set_ne stl.1 hij 2 0).trans hzj
    · exact hzj

theorem packRel_p2step (g : Word) (st : ℕ × List (Option Char))
    (stl : List ℕ × List (Option Char)) {i : ℕ} (hi : i < 5)
    (hrel : PackRel st stl) : PackRel (p2step g st i) (tsp2step g stl i) := by
  obtain ⟨h1, h2, h3, h4⟩ := hrel
  have hcond : (st.1 &&& (3 <<< (2 * (4 - i)))) >>> (2 * (4 - i)) =
      stl.1.getD i 0 := by
    rw [h1]; exact mask_pack2 stl.1 h3 h4 hi
  unfold p2step tsp2step
  rw [h2, hcond]
  by_cases hz : stl.1.getD i 0 = 0
  · by_cases hm : some (g.getD i default) ∈ stl.2
    · simp only [hz, hm, if_pos rfl, and_self, if_pos trivial, if_true]
      refine ⟨?_, rfl, by simp [h3], ?_⟩
      · rw [h1]
        exact pack2_or_set stl.1 h3 h4 hi (by omega) hz
      · intro x hx
        rcases List.mem_or_eq_of_mem_set hx with h | h
        · exact h4 x h
        · omega
    · simp only [hz, hm, if_pos rfl, and_false, if_false]
      exact ⟨h1, h2, h3, h4⟩
  · simp only [if_neg hz, hz, false_and, if_false]
    exact ⟨h1, h2, h3, h4⟩

theorem packRel_p2fold (g : Word) :
    ∀ L : List ℕ, (∀ i ∈ L, i < 5) →
      ∀ st stl, PackRel st stl →
        PackRel (L.foldl (p2step g) st) (L.foldl (tsp2step g) stl) := by
  intro L
  induction L with
  | nil => exact fun _ st stl h => h
  | cons i L ih =>
    intro hlt st stl hrel
    simp only [List.foldl_cons]
    exact ih (fun j hj => hlt j (List.mem_cons_of_mem i hj)) _ _
      (packRel_p2step g st stl (hlt i (List.mem_cons_self i L)) hrel)

/-- The packed feedback of `wordle.py` packs the per-position feedback list
of `top_starters.py`, for any pair of words. -/
theorem get_feedback_eq_pack_ts (guess target : Word) :
    get_feedback guess target = pack2 (get_feedback_ts guess target) := by
  have hinit : PackRel (0, target.map some)
      (List.replicate 5 0, target.map some) := by
    refine ⟨rfl, rfl, by simp, ?_⟩
    intro x hx
    have := List.eq_of_mem_replicate hx
    omega
  have h1 : PackRel ((List.range 5).foldl (p1step guess) (0, target.map some))
      ((List.range 5).foldl (tsp1step guess)
        (List.replicate 5 0, target.map some)) := by
    refine packRel_p1fold guess _ (List.nodup_range 5)
      (fun i hi => List.mem_range.1 hi) _ _ hinit ?_
    intro i hi
    have : i < 5 := List.mem_range.1 hi
    interval_cases i <;> rfl
  have h2 := packRel_p2fold guess (List.range 5)
    (fun i hi => List.mem_range.1 hi) _ _ h1
  exact h2.1

/-- Shape of the per-position feedback list: five entries, each `0`, `1`
or `2` (in particular below `4`). -/
theorem get_feedback_ts_shape (guess target : Word) :
    (get_feedback_ts guess target).length = 5 ∧
      ∀ x ∈ get_feedback_ts guess target, x < 4 := by
  have hstep : ∀ (f : List ℕ × List (Option Char) → ℕ → List ℕ × List (Option Char)),
      (∀ (st : List ℕ × List (Option Char)) (i : ℕ),
        (f st i).1 = st.1 ∨ ∃ v < 4, (f st i).1 = st.1.set i v) →
      ∀ (L : List ℕ) (st : List ℕ × List (Option Char)),
        (st.1.length = 5 ∧ ∀ x ∈ st.1, x < 4) →
        ((L.foldl f st).1.length = 5 ∧ ∀ x ∈ (L.foldl f st).1, x < 4) := by
    intro f hf L
    induction L with
    | nil => exact fun st h => h
    | cons i L ih =>
      intro st hst
      simp only [List.foldl_cons]
      refine ih _ ?_
      rcases hf st i with h | ⟨v, hv, h⟩
      · rw [h]; exact hst
      · rw [h]
        refine ⟨by simp [hst.1], ?_⟩
        intro x hx
        rcases List.mem_or_eq_of_mem_set hx with hxx | hxx
        · exact hst.2 x hxx
        · omega
  have grab1 : ∀ (st : List ℕ × List (Option Char)) (i : ℕ),
      (tsp1step guess st i).1 = st.1 ∨ ∃ v < 4, (tsp1step guess st i).1 = st.1.set i v := by
    intro st i
    unfold tsp1step
    split
    · exact Or.inr ⟨2, by omega, rfl⟩
    · exact Or.inl rfl
  have grab2 : ∀ (st : List ℕ × List (Option Char)) (i : ℕ),
      (tsp2step guess st i).1 = st.1 ∨ ∃ v < 4, (tsp2step guess st i).1 = st.1.set i v := by
    intro st i
    unfold tsp2step
    split
    · exact Or.inr ⟨1, by omega, rfl⟩
    · exact Or.inl rfl
  have h1 := hstep _ grab1 (List.range 5) (List.replicate 5 0, target.map some)
    ⟨by simp, fun x hx => by have := List.eq_of_mem_replicate hx; omega⟩
  exact hstep _ grab2 (List.range 5) _ h1

/-- Fields of the packed feedback coincide with the entries of the
per-position feedback list. -/
theorem fbField_get_feedback (guess target : Word) {i : ℕ} (hi : i < 5) :
    fbField i (get_feedback guess target) = (get_feedback_ts guess target).getD i 0 := by
  rw [get_feedback_eq_pack_ts]
  exact fbField_pack2 _ (get_feedback_ts_shape guess target).1
    (get_feedback_ts_shape guess target).2 hi

theorem tsp1_closed (g0 g1 g2 g3 g4 t0 t1 t2 t3 t4 : Char) :
    (List.range 5).foldl (tsp1step [g0, g1, g2, g3, g4])
      (List.replicate 5 0, [t0, t1, t2, t3, t4].map some) =
    ([greenMark g0 t0, greenMark g1 t1, greenMark g2 t2, greenMark g3 t3,
      greenMark g4 t4],
     [greenRem g0 t0, greenRem g1 t1, greenRem g2 t2, greenRem g3 t3,
      greenRem g4 t4]) := by
  by_cases h0 : t0 = g0 <;> by_cases h1 : t1 = g1 <;> by_cases h2 : t2 = g2 <;>
    by_cases h3 : t3 = g3 <;> by_cases h4 : t4 = g4 <;>
    simp [range5_eq, tsp1step, greenMark, greenRem, h0, h1, h2, h3, h4]

theorem count_set_eq :
    ∀ (l : List (Option Char)) (n : ℕ) (h : n < l.length) (a b : Option Char),
      (l.set n b).count a =
        l.count a + (if b = a then 1 else 0) - (if l[n] = a then 1 else 0) := by
  intro l
  induction l with
  | nil => intro n h a b; exact absurd h (by simp)
  | cons x xs ih =>
    intro n h a b
    cases n with
    | zero =>
      show (b :: xs).count a = (x :: xs).count a + _ - _
      simp only [List.count_cons, beq_iff_eq, List.getElem_cons_zero]
      by_cases hb : b = a <;> by_cases hx : x = a <;> simp [hb, hx]
    | succ n =>
      have hn : n < xs.length := by simpa using h
      show (x :: xs.set n b).count a = (x :: xs).count a + _ - _
      simp only [List.count_cons, beq_iff_eq, List.getElem_cons_succ]
      rw [ih n hn a b]
      have hmem : xs[n] ∈ xs := List.getElem_mem hn
      by_cases hg : xs[n] = a
      · have hcnt : 0 < xs.count a := List.count_pos_iff.2 (hg ▸ hmem)
        by_cases hx : x = a <;> by_cases hb : b = a <;> simp [hx, hb, hg] <;> omega
      · by_cases hx : x = a <;> by_cases hb : b = a <;> simp [hx, hb, hg]

theorem gyMarks_set_one (guess : Word) (fbl : List ℕ) {i : ℕ} (hi : i < 5)
    (hlen : fbl.length = 5) (hz : fbl.getD i 0 = 0) (c : Char) :
    gyMarks guess (fbl.set i 1) c =
      gyMarks guess fbl c + (if guess.getD i default = c then 1 else 0) := by
  unfold gyMarks
  by_cases hc : guess.getD i default = c
  · rw [if_pos hc]
    have hfilter : (Finset.range 5).filter (fun j =>
        ((fbl.set i 1).getD j 0 = 2 ∨ (fbl.set i 1).getD j 0 = 1) ∧
          guess.getD j default = c) =
        insert i ((Finset.range 5).filter (fun j =>
          (fbl.getD j 0 = 2 ∨ fbl.getD j 0 = 1) ∧ guess.getD j default = c)) := by
      ext j
      simp only [Finset.mem_filter, Finset.mem_insert, Finset.mem_range]
      by_cases hij : j = i
      · subst hij
        rw [getD_set_self fbl (by omega : j < fbl.length)]
        exact iff_of_true ⟨hi, Or.inr rfl, hc⟩ (Or.inl rfl)
      · rw [getD_set_ne fbl (Ne.symm hij)]
        constructor
        · rintro ⟨hj5, hp⟩; exact Or.inr ⟨hj5, hp⟩
        · rintro (rfl | ⟨hj5, hp⟩)
          · exact absurd rfl hij
          · exact ⟨hj5, hp⟩
    rw [hfilter, Finset.card_insert_of_not_mem]
    · intro hmem
      rcases Finset.mem_filter.1 hmem with ⟨-, hp, -⟩
      rcases hp with hp | hp <;> omega
  · rw [if_neg hc, add_zero]
    apply congrArg Finset.card
    apply Finset.filter_congr
    intro j hj
    by_cases hij : j = i
    · subst hij
      rw [getD_set_self fbl (by omega : j < fbl.length)]
      exact iff_of_false (fun h => hc h.2) (fun h => hc h.2)
    · rw [getD_set_ne fbl (Ne.symm hij)]

theorem indexOf_spec {α : Type} [BEq α] [LawfulBEq α] :
    ∀ (l : List α) (x : α), x ∈ l →
      l.indexOf x < l.length ∧ l[l.indexOf x]? = some x := by
  intro l
  induction l with
  | nil => intro x hm; simp at hm
  | cons a as ih =>
    intro x hm
    by_cases hax : (a == x) = true
    · rw [List.indexOf_cons, hax]
      exact ⟨by simp, by simp [eq_of_beq hax]⟩
    · have hxm : x ∈ as := by
        rcases List.mem_cons.1 hm with h | h
        · exact absurd (by simp [h]) hax
        · exact h
      obtain ⟨ih1, ih2⟩ := ih x hxm
      rw [List.indexOf_cons]
      simp only [hax, cond_false]
      exact ⟨by simpa using Nat.succ_lt_succ ih1, by simpa using ih2⟩

theorem count_set_indexOf_none (tc : List (Option Char)) (g c : Char)
    (hm : some g ∈ tc) :
    (tc.set (tc.indexOf (some g)) none).count (some c) =
      tc.count (some c) - (if g = c then 1 else 0) := by
  obtain ⟨hidx, hget?⟩ := indexOf_spec tc (some g) hm
  have hget : tc[tc.indexOf (some g)] = some g := by
    rw [List.getElem?_eq_getElem hidx] at hget?
    exact Option.some.inj hget?
  rw [count_set_eq tc _ hidx (some c) none]
  simp only [hget]
  by_cases hgc : g = c <;> simp [hgc]

theorem c2inv_p2step (guess target : Word) (st : List ℕ × List (Option Char))
    {i : ℕ} (hi : i < 5) (h : C2Inv guess target st) :
    C2Inv guess target (tsp2step guess st i) := by
  obtain ⟨hlen, hgreen, hcount⟩ := h
  unfold tsp2step
  split
  case isTrue hcond =>
    obtain ⟨hz, hm⟩ := hcond
    refine ⟨by simp [hlen], ?_, ?_⟩
    · intro j hj
      show (st.1.set i 1).getD j 0 = 2 ↔ _
      by_cases hij : j = i
      · subst hij
        rw [getD_set_self st.1 (by omega : j < st.1.length)]
        constructor
        · intro h1; omega
        · intro ht
          have := (hgreen j hj).2 ht
          omega
      · rw [getD_set_ne st.1 (Ne.symm hij)]
        exact hgreen j hj
    · intro c
      show gyMarks guess (st.1.set i 1) c +
        (st.2.set (st.2.indexOf (some (guess.getD i default))) none).count (some c) = _
      rw [gyMarks_set_one guess st.1 hi hlen hz c,
          count_set_indexOf_none st.2 _ c hm]
      have hc := hcount c
      by_cases hgc : guess.getD i default = c
      · have hpos : 0 < st.2.count (some c) := by
          rw [← hgc]
          exact List.count_pos_iff.2 hm
        rw [if_pos hgc]
        omega
      · rw [if_neg hgc]
        omega
  case isFalse => exact ⟨hlen, hgreen, hcount⟩

theorem c2inv_p2fold (guess target : Word) :
    ∀ L : List ℕ, (∀ i ∈ L, i < 5) → ∀ st, C2Inv guess target st →
      C2Inv guess target (L.foldl (tsp2step guess) st) := by
  intro L
  induction L with
  | nil => exact fun _ st h => h
  | cons i L ih =>
    intro hlt st h
    simp only [List.foldl_cons]
    exact ih (fun j hj => hlt j (List.mem_cons_of_mem i hj)) _
      (c2inv_p2step guess target st (hlt i (List.mem_cons_self i L)) h)

theorem gy_pos_helper (g t c : Char) :
    (if ((greenMark g t = 2 ∨ greenMark g t = 1) ∧ g = c) then 1 else 0) +
      (if greenRem g t = some c then 1 else 0) = if t = c then 1 else 0 := by
  by_cases hgt : t = g <;> by_cases hc : t = c <;>
    simp_all [greenMark, greenRem]

theorem c2inv_init (g0 g1 g2 g3 g4 t0 t1 t2 t3 t4 : Char) :
    C2Inv [g0, g1, g2, g3, g4] [t0, t1, t2, t3, t4]
      ([greenMark g0 t0, greenMark g1 t1, greenMark g2 t2, greenMark g3 t3,
        greenMark g4 t4],
       [greenRem g0 t0, greenRem g1 t1, greenRem g2 t2, greenRem g3 t3,
        greenRem g4 t4]) := by
  refine ⟨rfl, ?_, ?_⟩
  · intro i hi
    interval_cases i <;> simp [greenMark]
  · intro c
    show gyMarks _ _ c + _ = _
    unfold gyMarks
    rw [Finset.card_filter]
    simp only [Finset.sum_range_succ, Finset.sum_range_zero, List.count_cons,
      List.count_nil, beq_iff_eq, List.getD_cons_zero, List.getD_cons_succ]
    have h0 := gy_pos_helper g0 t0 c
    have h1 := gy_pos_helper g1 t1 c
    have h2 := gy_pos_helper g2 t2 c
    have h3 := gy_pos_helper g3 t3 c
    have h4 := gy_pos_helper g4 t4 c
    linarith

/-- Combined facts about the list-form feedback of two five-letter words:
greens characterised positionally, and green-plus-yellow marks per letter
bounded by the letter's occurrences in the target. -/
theorem c2_ts_final (guess target : Word) (hg : guess.length = 5)
    (ht : target.length = 5) :
    (∀ i, i < 5 → ((get_feedback_ts guess target).getD i 0 = 2 ↔
      target.getD i default = guess.getD i default)) ∧
    ∀ c : Char, gyMarks guess (get_feedback_ts guess target) c ≤ target.count c := by
  match guess, hg, target, ht with
  | [g0, g1, g2, g3, g4], _, [t0, t1, t2, t3, t4], _ =>
    have hts : get_feedback_ts [g0, g1, g2, g3, g4] [t0, t1, t2, t3, t4] =
        ((List.range 5).foldl (tsp2step [g0, g1, g2, g3, g4])
          ([greenMark g0 t0, greenMark g1 t1, greenMark g2 t2, greenMark g3 t3,
            greenMark g4 t4],
           [greenRem g0 t0, greenRem g1 t1, greenRem g2 t2, greenRem g3 t3,
            greenRem g4 t4])).1 := by
      unfold get_feedback_ts
      rw [tsp1_closed]
    have hinv := c2inv_p2fold [g0, g1, g2, g3, g4] [t0, t1, t2, t3, t4]
      (List.range 5) (fun i hi => List.mem_range.1 hi) _
      (c2inv_init g0 g1 g2 g3 g4 t0 t1 t2 t3 t4)
    constructor
    · intro i hi
      rw [hts]
      exact hinv.2.1 i hi
    · intro c
      rw [hts]
      have := hinv.2.2 c
      omega

/-- Scenario check from the design notes: `guess = "aabbb"`,
`target = "ababa"` gives green, yellow, yellow, green, gray. -/
theorem scenario_duplicates : get_feedback "aabbb".toList "ababa".toList = 600 := by decide

theorem scenario_duplicates_ts : get_feedback_ts "aabbb".toList "ababa".toList = [2, 1, 1, 2, 0] := by
  decide

theorem scenario_reversed : get_feedback "abcde".toList "edcba".toList = pack2 [1, 1, 2, 1, 1] := by
  decide

/-! ## Claim theorems about the feedback relation -/

/-- C2: for every 5-letter guess and target, position `i` of the feedback
computed by `get_feedback` is green (two-bit field `10`) iff
`guess[i] = target[i]`, and for each letter value the number of positions
marked green or yellow and carrying that letter never exceeds the letter's
number of occurrences in the target. -/
theorem claim_C2 (guess target : Word) (hg : guess.length = 5)
    (ht : target.length = 5) :
    (∀ i, i < 5 → (fbField i (get_feedback guess target) = 2 ↔
      guess.getD i default = target.getD i default)) ∧
    ∀ c : Char,
      ((Finset.range 5).filter (fun i =>
        (fbField i (get_feedback guess target) = 2 ∨
          fbField i (get_feedback guess target) = 1) ∧
        guess.getD i default = c)).card ≤ target.count c := by
  obtain ⟨hgreen, hcount⟩ := c2_ts_final guess target hg ht
  constructor
  · intro i hi
    rw [fbField_get_feedback guess target hi]
    exact (hgreen i hi).trans eq_comm
  · intro c
    have hfeq : (Finset.range 5).filter (fun i =>
        (fbField i (get_feedback guess target) = 2 ∨
          fbField i (get_feedback guess target) = 1) ∧
        guess.getD i default = c) =
        (Finset.range 5).filter (fun i =>
          ((get_feedback_ts guess target).getD i 0 = 2 ∨
            (get_feedback_ts guess target).getD i 0 = 1) ∧
          guess.getD i default = c) := by
      apply Finset.filter_congr
      intro i hi
      rw [fbField_get_feedback guess target (Finset.mem_range.1 hi)]
    rw [hfeq]
    exact hcount c

theorem claim_C2_witness :
    ("aabbb".toList.length = 5 ∧ "ababa".toList.length = 5) ∧
    ((∀ i, i < 5 → (fbField i (get_feedback "aabbb".toList "ababa".toList) = 2 ↔
      "aabbb".toList.getD i default = "ababa".toList.getD i default)) ∧
    ∀ c : Char,
      ((Finset.range 5).filter (fun i =>
        (fbField i (get_feedback "aabbb".toList "ababa".toList) = 2 ∨
          fbField i (get_feedback "aabbb".toList "ababa".toList) = 1) ∧
        "aabbb".toList.getD i default = c)).card ≤ "ababa".toList.count c) :=
  ⟨⟨rfl, rfl⟩, claim_C2 "aabbb".toList "ababa".toList rfl rfl⟩

/-- C8: for every 5-letter word, the feedback of the word against itself is
the all-green pattern, whose packed value is 682, and every two-bit field of
682 is green. -/
theorem claim_C8 (w : Word) (h : w.length = 5) :
    get_feedback w w = 682 ∧ ∀ i, i < 5 → fbField i 682 = 2 := by
  refine ⟨?_, by intro i hi; interval_cases i <;> rfl⟩
  match w, h with
  | [a, b, c, d, e], _ =>
    show get_feedback [a, b, c, d, e] [a, b, c, d, e] = 682
    have hts : get_feedback_ts [a, b, c, d, e] [a, b, c, d, e] =
        [2, 2, 2, 2, 2] := by
      unfold get_feedback_ts
      rw [tsp1_closed]
      simp [greenMark, greenRem, range5_eq, tsp2step]
    rw [get_feedback_eq_pack_ts, hts]
    rfl

theorem claim_C8_witness :
    "crane".toList.length = 5 ∧
    (get_feedback "crane".toList "crane".toList = 682 ∧
      ∀ i, i < 5 → fbField i 682 = 2) :=
  ⟨rfl, claim_C8 "crane".toList rfl⟩

/-- C10: the two implementations of the feedback relation agree — packing
`top_starters.py`'s per-position tuple two bits per position, most
significant position first, yields the integer returned by `wordle.py`'s
`get_feedback`. -/
theorem claim_C10 (guess target : Word) (_hg : guess.length = 5)
    (_ht : target.length = 5) :
    pack2 (get_feedback_ts guess target) = get_feedback guess target :=
  (get_feedback_eq_pack_ts guess target).symm

theorem claim_C10_witness :
    ("crane".toList.length = 5 ∧ "bonus".toList.length = 5) ∧
    pack2 (get_feedback_ts "crane".toList "bonus".toList) =
      get_feedback "crane".toList "bonus".toList :=
  ⟨⟨rfl, rfl⟩, claim_C10 "crane".toList "bonus".toList rfl rfl⟩

/-! ## CandidateFilter claims -/

/-- C3: `filter_possible_words` keeps exactly the words of the input whose
feedback for the guess equals the observed pattern, in input order (the
result is a sublist, hence independent of any other state and possibly
empty). -/
theorem claim_C3 (guess : Word) (feedback : ℕ) (possible_words : List Word) :
    (∀ w : Word, w ∈ filter_possible_words guess feedback possible_words ↔
      w ∈ possible_words ∧ get_feedback guess w = feedback) ∧
    (filter_possible_words guess feedback possible_words).Sublist
      possible_words := by
  constructor
  · intro w
    simp [filter_possible_words, List.mem_filter]
  · exact List.filter_sublist possible_words

/-- C9: `filter_possible_words` is idempotent — filtering an already
filtered list with the same guess and pattern returns the same list. -/
theorem claim_C9 (guess : Word) (feedback : ℕ) (possible_words : List Word) :
    filter_possible_words guess feedback
      (filter_possible_words guess feedback possible_words) =
    filter_possible_words guess feedback possible_words := by
  simp [filter_possible_words, List.filter_filter]

theorem list_toFinset_sum_count (l : List ℕ) :
    ∑ p ∈ l.toFinset, l.count p = l.length := by
  have h := Multiset.toFinset_sum_count_eq (l : Multiset ℕ)
  simpa [List.toFinset_coe, Multiset.coe_count] using h

theorem calculate_entropy_nonneg (guess : Word) (S : List Word) :
    0 ≤ calculate_entropy guess S := by
  unfold calculate_entropy
  rw [neg_nonneg]
  apply Finset.sum_nonpos
  intro p hp
  have hS : S ≠ [] := by rintro rfl; simp at hp
  have hn0 : 0 < S.length := List.length_pos.2 hS
  have hc0 : (0 : ℝ) < ((S.map (get_feedback guess)).count p : ℝ) := by
    exact_mod_cast List.count_pos_iff.2 (List.mem_toFinset.1 hp)
  have hcle : ((S.map (get_feedback guess)).count p : ℝ) ≤ (S.length : ℝ) := by
    have h1 := List.count_le_length p (S.map (get_feedback guess))
    have h2 : (S.map (get_feedback guess)).length = S.length := by simp
    exact_mod_cast h2 ▸ h1
  have hdiv0 : (0 : ℝ) ≤
      ((S.map (get_feedback guess)).count p : ℝ) / (S.length : ℝ) := by positivity
  have hdiv1 : ((S.map (get_feedback guess)).count p : ℝ) / (S.length : ℝ) ≤ 1 :=
    (div_le_one (by exact_mod_cast hn0)).2 hcle
  exact mul_nonpos_iff.2
    (Or.inl ⟨hdiv0, Real.logb_nonpos (by norm_num : (1 : ℝ) < 2) hdiv0 hdiv1⟩)

theorem calculate_entropy_short (guess : Word) (S : List Word)
    (h : S.length ≤ 1) : calculate_entropy guess S = 0 := by
  match S, h with
  | [], _ => simp [calculate_entropy]
  | [w], _ => simp [calculate_entropy]

/-- Gibbs bound for the entropy sum of an arbitrary nonempty pattern list:
the entropy never exceeds `log2` of the list length. -/
theorem entropy_sum_le (l : List ℕ) (hne : l ≠ []) :
    -(∑ p ∈ l.toFinset, ((l.count p : ℝ) / (l.length : ℝ)) *
        Real.logb 2 ((l.count p : ℝ) / (l.length : ℝ))) ≤
      Real.logb 2 (l.length : ℝ) := by
  have hn0 : 0 < l.length := List.length_pos.2 hne
  have hnR : (0 : ℝ) < (l.length : ℝ) := by exact_mod_cast hn0
  have hk0 : 0 < l.toFinset.card := by
    rw [Finset.card_pos]
    obtain ⟨x, hx⟩ := List.exists_mem_of_ne_nil l hne
    exact ⟨x, List.mem_toFinset.2 hx⟩
  have hkR : (0 : ℝ) < (l.toFinset.card : ℝ) := by exact_mod_cast hk0
  have hkn : l.toFinset.card ≤ l.length := by
    calc l.toFinset.card = (↑l : Multiset ℕ).toFinset.card := by
          rw [List.toFinset_coe]
      _ ≤ Multiset.card (↑l : Multiset ℕ) := Multiset.toFinset_card_le _
      _ = l.length := by simp
  have hcount_pos : ∀ p ∈ l.toFinset, (0 : ℝ) < (l.count p : ℝ) := by
    intro p hp
    exact_mod_cast List.count_pos_iff.2 (List.mem_toFinset.1 hp)
  have hsum1 : ∑ p ∈ l.toFinset, ((l.count p : ℝ) / (l.length : ℝ)) = 1 := by
    rw [← Finset.sum_div]
    rw [show ∑ p ∈ l.toFinset, ((l.count p : ℝ)) = ((l.length : ℝ)) by
      exact_mod_cast list_toFinset_sum_count l]
    exact div_self hnR.ne'
  have hterms : ∀ p ∈ l.toFinset,
      ((l.count p : ℝ) / (l.length : ℝ)) *
        Real.logb 2 ((l.count p : ℝ) / (l.length : ℝ)) =
      (((l.count p : ℝ) / (l.length : ℝ)) *
        Real.log ((l.count p : ℝ) / (l.length : ℝ))) / Real.log 2 := by
    intro p _
    rw [Real.logb, mul_div_assoc]
  have hlog2 : (0 : ℝ) < Real.log 2 := Real.log_pos (by norm_num)
  have hterm : ∀ p ∈ l.toFinset,
      ((l.count p : ℝ) / (l.length : ℝ)) *
        Real.log ((l.length : ℝ) / ((l.count p : ℝ) * (l.toFinset.card : ℝ))) ≤
        1 / (l.toFinset.card : ℝ) - (l.count p : ℝ) / (l.length : ℝ) := by
    intro p hp
    have hc := hcount_pos p hp
    have hx : (0 : ℝ) <
        (l.length : ℝ) / ((l.count p : ℝ) * (l.toFinset.card : ℝ)) :=
      div_pos hnR (mul_pos hc hkR)
    have hlog := Real.log_le_sub_one_of_pos hx
    have h1 : ((l.count p : ℝ) / (l.length : ℝ)) *
        Real.log ((l.length : ℝ) / ((l.count p : ℝ) * (l.toFinset.card : ℝ))) ≤
        ((l.count p : ℝ) / (l.length : ℝ)) *
          ((l.length : ℝ) / ((l.count p : ℝ) * (l.toFinset.card : ℝ)) - 1) :=
      mul_le_mul_of_nonneg_left hlog (le_of_lt (div_pos hc hnR))
    refine h1.trans (le_of_eq ?_)
    field_simp
    ring
  have hsplit : ∀ p ∈ l.toFinset,
      -(((l.count p : ℝ) / (l.length : ℝ)) *
          Real.log ((l.count p : ℝ) / (l.length : ℝ))) =
        ((l.count p : ℝ) / (l.length : ℝ)) *
            Real.log ((l.length : ℝ) /
              ((l.count p : ℝ) * (l.toFinset.card : ℝ))) +
          ((l.count p : ℝ) / (l.length : ℝ)) *
            Real.log (l.toFinset.card : ℝ) := by
    intro p hp
    have hc := hcount_pos p hp
    have e1 : (l.length : ℝ) / ((l.count p : ℝ) * (l.toFinset.card : ℝ)) *
        (l.toFinset.card : ℝ) = (l.length : ℝ) / (l.count p : ℝ) := by
      field_simp
      ring
    rw [← mul_add,
        ← Real.log_mul (div_pos hnR (mul_pos hc hkR)).ne' hkR.ne', e1,
        neg_mul_eq_mul_neg, ← Real.log_inv, inv_div]
  have hA : -(∑ p ∈ l.toFinset, ((l.count p : ℝ) / (l.length : ℝ)) *
        Real.log ((l.count p : ℝ) / (l.length : ℝ))) =
      ∑ p ∈ l.toFinset,
        (((l.count p : ℝ) / (l.length : ℝ)) *
            Real.log ((l.length : ℝ) /
              ((l.count p : ℝ) * (l.toFinset.card : ℝ))) +
          ((l.count p : ℝ) / (l.length : ℝ)) *
            Real.log (l.toFinset.card : ℝ)) := by
    rw [← Finset.sum_neg_distrib]
    exact Finset.sum_congr rfl hsplit
  have hB : ∑ p ∈ l.toFinset,
      ((l.count p : ℝ) / (l.length : ℝ)) * Real.log (l.toFinset.card : ℝ) =
      Real.log (l.toFinset.card : ℝ) := by
    rw [← Finset.sum_mul, hsum1, one_mul]
  have hC : ∑ p ∈ l.toFinset,
      ((l.count p : ℝ) / (l.length : ℝ)) *
        Real.log ((l.length : ℝ) /
          ((l.count p : ℝ) * (l.toFinset.card : ℝ))) ≤ 0 := by
    refine le_trans (Finset.sum_le_sum hterm) ?_
    rw [Finset.sum_sub_distrib, Finset.sum_const, hsum1, nsmul_eq_mul,
        mul_one_div, div_self hkR.ne']
    norm_num
  have hfin : -(∑ p ∈ l.toFinset, ((l.count p : ℝ) / (l.length : ℝ)) *
      Real.log ((l.count p : ℝ) / (l.length : ℝ))) ≤
      Real.log (l.toFinset.card : ℝ) := by
    rw [hA, Finset.sum_add_distrib, hB]
    linarith
  calc -(∑ p ∈ l.toFinset, ((l.count p : ℝ) / (l.length : ℝ)) *
        Real.logb 2 ((l.count p : ℝ) / (l.length : ℝ)))
      = -(∑ p ∈ l.toFinset, ((l.count p : ℝ) / (l.length : ℝ)) *
          Real.log ((l.count p : ℝ) / (l.length : ℝ))) / Real.log 2 := by
        rw [Finset.sum_congr rfl hterms, ← Finset.sum_div, neg_div]
    _ ≤ Real.log (l.toFinset.card : ℝ) / Real.log 2 :=
        (div_le_div_right hlog2).2 hfin
    _ = Real.logb 2 (l.toFinset.card : ℝ) := Real.log_div_log
    _ ≤ Real.logb 2 (l.length : ℝ) :=
        Real.logb_le_logb_of_le (by norm_num) hkR (by exact_mod_cast hkn)

theorem calculate_entropy_le_logb (guess : Word) (S : List Word) :
    calculate_entropy guess S ≤ Real.logb 2 (S.length : ℝ) := by
  rcases eq_or_ne S [] with rfl | hS
  · simp [calculate_entropy]
  · have h := entropy_sum_le (S.map (get_feedback guess)) (by simp [hS])
    rw [List.length_map] at h
    exact h

/-- Entropy sum of a duplicate-free pattern list equals `log2` of its
length. -/
theorem entropy_sum_nodup (l : List ℕ) (h : l.Nodup) (hne : l ≠ []) :
    -(∑ p ∈ l.toFinset, ((l.count p : ℝ) / (l.length : ℝ)) *
        Real.logb 2 ((l.count p : ℝ) / (l.length : ℝ))) =
      Real.logb 2 (l.length : ℝ) := by
  have hn0 : 0 < l.length := List.length_pos.2 hne
  have hnne : ((l.length : ℝ)) ≠ 0 := by exact_mod_cast hn0.ne'
  have hcard : l.toFinset.card = l.length := by
    calc l.toFinset.card = (↑l : Multiset ℕ).toFinset.card := by
          rw [List.toFinset_coe]
      _ = Multiset.card (↑l : Multiset ℕ) :=
          Multiset.toFinset_card_of_nodup ((Multiset.coe_nodup).2 h)
      _ = l.length := by simp
  rw [Finset.sum_congr rfl (fun p hp => by
    rw [show ((l.count p : ℝ)) = 1 by
      exact_mod_cast List.count_eq_one_of_mem h (List.mem_toFinset.1 hp)])]
  rw [Finset.sum_const, hcard, nsmul_eq_mul, one_div, Real.logb_inv]
  field_simp

theorem calculate_entropy_nodup (guess : Word) (S : List Word)
    (h : (S.map (get_feedback guess)).Nodup) :
    calculate_entropy guess S = Real.logb 2 (S.length : ℝ) := by
  rcases eq_or_ne S [] with rfl | hS
  · simp [calculate_entropy]
  · have heq := entropy_sum_nodup (S.map (get_feedback guess)) h (by simp [hS])
    rw [List.length_map] at heq
    exact heq
/-! ## EntropyEvaluator claims -/

/-- C4: for every guess `g` and candidate list `S`, the entropy lies in
`[0, log2 |S|]`, equals `0` whenever `|S| ≤ 1` (including the empty list),
and equals `log2 |S|` when `g` assigns a distinct feedback pattern to every
word of `S`. -/
theorem claim_C4 (guess : Word) (S : List Word) :
    (0 ≤ calculate_entropy guess S ∧
      calculate_entropy guess S ≤ Real.logb 2 (S.length : ℝ)) ∧
    (S.length ≤ 1 → calculate_entropy guess S = 0) ∧
    ((S.map (get_feedback guess)).Nodup →
      calculate_entropy guess S = Real.logb 2 (S.length : ℝ)) :=
  ⟨⟨calculate_entropy_nonneg guess S, calculate_entropy_le_logb guess S⟩,
    calculate_entropy_short guess S, calculate_entropy_nodup guess S⟩

theorem claim_C4_witness :
    (0 ≤ calculate_entropy "trace".toList ["aaaaa".toList] ∧
      calculate_entropy "trace".toList ["aaaaa".toList] ≤
        Real.logb 2 (([("aaaaa".toList : Word)].length : ℝ))) ∧
    (([("aaaaa".toList : Word)].length ≤ 1 →
      calculate_entropy "trace".toList ["aaaaa".toList] = 0)) ∧
    ((([("aaaaa".toList : Word)].map (get_feedback "trace".toList)).Nodup →
      calculate_entropy "trace".toList ["aaaaa".toList] =
        Real.logb 2 (([("aaaaa".toList : Word)].length : ℝ)))) :=
  claim_C4 "trace".toList ["aaaaa".toList]

/-- Specification of a left fold with Python's `max` semantics: the result
occurs in the list, every element's key is bounded by the result's key, and
every element strictly before the result's position has a strictly smaller
key (first maximum wins). -/
theorem foldl_pymax_spec {α : Type} (key : α → ℝ) :
    ∀ (xs : List α) (x : α), ∃ i : ℕ,
      (x :: xs)[i]? =
        some (xs.foldl (fun best p => if key best < key p then p else best) x) ∧
      (∀ (j : ℕ) (y : α), (x :: xs)[j]? = some y →
        key y ≤
          key (xs.foldl (fun best p => if key best < key p then p else best) x)) ∧
      (∀ (j : ℕ) (y : α), j < i → (x :: xs)[j]? = some y →
        key y <
          key (xs.foldl (fun best p => if key best < key p then p else best) x)) := by
  intro xs
  induction xs using List.reverseRecOn with
  | nil =>
    intro x
    refine ⟨0, rfl, ?_, ?_⟩
    · intro j y hj
      match j, hj with
      | 0, hj => simp at hj; simp [hj, List.foldl_nil]
    · intro j y hj
      omega
  | append_singleton ys p ih =>
    intro x
    obtain ⟨i, hi, hmax, hstrict⟩ := ih x
    rw [List.foldl_append, List.foldl_cons, List.foldl_nil]
    set r := ys.foldl (fun best p => if key best < key p then p else best) x
      with hr
    have hilen : i < (x :: ys).length := by
      by_contra hcon
      rw [List.getElem?_eq_none (by omega)] at hi
      exact Option.noConfusion hi
    by_cases hcmp : key r < key p
    · rw [if_pos hcmp]
      refine ⟨(x :: ys).length, ?_, ?_, ?_⟩
      · rw [← List.cons_append,
          List.getElem?_append_right (le_refl _)]
        simp
      · intro j y hj
        rcases Nat.lt_trichotomy j (x :: ys).length with hlt | heq | hgt
        · rw [← List.cons_append,
            List.getElem?_append_left hlt] at hj
          exact le_of_lt (lt_of_le_of_lt (hmax j y hj) hcmp)
        · rw [← List.cons_append, heq,
            List.getElem?_append_right (le_refl _)] at hj
          simp at hj
          rw [← hj]
        · rw [List.getElem?_eq_none (by
            simp only [List.length_cons, List.length_append,
              List.length_singleton, List.length_nil] at hgt ⊢
            omega)] at hj
          exact Option.noConfusion hj
      · intro j y hj hjget
        rw [← List.cons_append,
          List.getElem?_append_left (by simpa using hj)] at hjget
        exact lt_of_le_of_lt (hmax j y hjget) hcmp
    · rw [if_neg hcmp]
      refine ⟨i, ?_, ?_, ?_⟩
      · rw [← List.cons_append,
          List.getElem?_append_left hilen]
        exact hi
      · intro j y hj
        rcases Nat.lt_trichotomy j (x :: ys).length with hlt | heq | hgt
        · rw [← List.cons_append,
            List.getElem?_append_left hlt] at hj
          exact hmax j y hj
        · rw [← List.cons_append, heq,
            List.getElem?_append_right (le_refl _)] at hj
          simp at hj
          rw [← hj]
          exact le_of_not_lt hcmp
        · rw [List.getElem?_eq_none (by
            simp only [List.length_cons, List.length_append,
              List.length_singleton, List.length_nil] at hgt ⊢
            omega)] at hj
          exact Option.noConfusion hj
      · intro j y hj hjget
        rw [← List.cons_append,
          List.getElem?_append_left (by omega)] at hjget
        exact hstrict j y hj hjget

/-! ## GuessSelector claims -/

theorem getElem?_cons_map {α β : Type} (f : α → β) (w : α) (ws : List α)
    (j : ℕ) : (f w :: ws.map f)[j]? = ((w :: ws)[j]?).map f := by
  cases j with
  | zero => simp
  | succ j => simp [List.getElem?_cons_succ, List.getElem?_map]

/-- C1 counterexample: with pool `["trace"]` and candidate set `["aaaaa"]`,
`select_best_guess_parallel` returns `"aaaaa"`, a word that is not in its
pool argument at all — entropies are computed over the candidate list, not
over the pool, so the claim's description of the pool's role is false. -/
theorem claim_C1_counterexample :
    select_best_guess_parallel ["trace".toList] ["aaaaa".toList] =
      some "aaaaa".toList ∧
    "aaaaa".toList ∉ (["trace".toList] : List Word) := by
  exact ⟨rfl, by decide⟩

/-- C1 (amended): for every non-empty candidate list,
`select_best_guess_parallel` ignores its pool argument and returns the word
of the **candidate list** with maximal entropy against the candidate list;
ties are broken by the earliest position in the candidate list's iteration
order, and the result is a pure function of the candidate list alone. -/
theorem claim_C1_amended (word_list possible_words : List Word)
    (h : possible_words ≠ []) :
    ∃ (i : ℕ) (r : Word),
      possible_words[i]? = some r ∧
      select_best_guess_parallel word_list possible_words = some r ∧
      (∀ (j : ℕ) (w : Word), possible_words[j]? = some w →
        calculate_entropy w possible_words ≤
          calculate_entropy r possible_words) ∧
      (∀ (j : ℕ) (w : Word), j < i → possible_words[j]? = some w →
        calculate_entropy w possible_words <
          calculate_entropy r possible_words) ∧
      (∀ wl : List Word, select_best_guess_parallel wl possible_words =
        select_best_guess_parallel word_list possible_words) := by
  match possible_words, h with
  | w :: ws, _ =>
    obtain ⟨i, hi, hmax, hstrict⟩ :=
      foldl_pymax_spec (α := Word × ℝ) Prod.snd
        (ws.map (fun g => (g, calculate_entropy g (w :: ws))))
        (w, calculate_entropy w (w :: ws))
    have hconv := getElem?_cons_map
      (fun g => (g, calculate_entropy g (w :: ws))) w ws
    rw [hconv i] at hi
    obtain ⟨r, hr, hfr⟩ := Option.map_eq_some'.1 hi
    refine ⟨i, r, hr, ?_, ?_, ?_, fun wl => rfl⟩
    · have hsel : select_best_guess_parallel word_list (w :: ws) =
          some (((ws.map (fun g => (g, calculate_entropy g (w :: ws)))).foldl
            (fun best p => if best.2 < p.2 then p else best)
            ((w, calculate_entropy w (w :: ws)))).1) := rfl
      rw [hsel, ← hfr]
    · intro j u hju
      have hj' : ((w, calculate_entropy w (w :: ws)) ::
          ws.map (fun g => (g, calculate_entropy g (w :: ws))))[j]? =
          some (u, calculate_entropy u (w :: ws)) := by
        rw [hconv j, hju]
        rfl
      have hle := hmax j (u, calculate_entropy u (w :: ws)) hj'
      rw [← hfr] at hle
      exact hle
    · intro j u hji hju
      have hj' : ((w, calculate_entropy w (w :: ws)) ::
          ws.map (fun g => (g, calculate_entropy g (w :: ws))))[j]? =
          some (u, calculate_entropy u (w :: ws)) := by
        rw [hconv j, hju]
        rfl
      have hlt := hstrict j (u, calculate_entropy u (w :: ws)) hji hj'
      rw [← hfr] at hlt
      exact hlt

theorem claim_C1_witness :
    (["aaaaa".toList] : List Word) ≠ [] ∧
    (∃ (i : ℕ) (r : Word),
      (["aaaaa".toList] : List Word)[i]? = some r ∧
      select_best_guess_parallel [] ["aaaaa".toList] = some r ∧
      (∀ (j : ℕ) (w : Word), (["aaaaa".toList] : List Word)[j]? = some w →
        calculate_entropy w ["aaaaa".toList] ≤
          calculate_entropy r ["aaaaa".toList]) ∧
      (∀ (j : ℕ) (w : Word), j < i →
        (["aaaaa".toList] : List Word)[j]? = some w →
        calculate_entropy w ["aaaaa".toList] <
          calculate_entropy r ["aaaaa".toList]) ∧
      (∀ wl : List Word, select_best_guess_parallel wl ["aaaaa".toList] =
        select_best_guess_parallel [] ["aaaaa".toList])) :=
  ⟨by simp, claim_C1_amended [] ["aaaaa".toList] (by simp)⟩

theorem lookup_isSome_iff (t : List Char) :
    (List.lookup t feedback_map).isSome ↔ t ∈ feedback_vocab := by
  rw [List.lookup_isSome_iff]
  simp [feedback_map, feedback_vocab, List.exists_mem_cons_iff, beq_iff_eq]
  all_goals tauto

theorem mapM_lookup_ok : ∀ ts : List (List Char),
    (∀ t ∈ ts, (List.lookup t feedback_map).isSome) →
    ts.mapM lookup_feedback_tok =
      Except.ok (ts.map (fun t => (List.lookup t feedback_map).getD [])) := by
  intro ts
  induction ts with
  | nil => intro _; rfl
  | cons t ts ih =>
    intro h
    obtain ⟨v, hv⟩ := Option.isSome_iff_exists.1 (h t (List.mem_cons_self t ts))
    rw [List.mapM_cons, ih (fun u hu => h u (List.mem_cons_of_mem t hu)),
      show lookup_feedback_tok t = Except.ok v from by
        simp [lookup_feedback_tok, hv]]
    show (Except.ok (v ::
        List.map (fun t => (List.lookup t feedback_map).getD []) ts) :
      Except String (List (List Char))) = _
    simp [hv]

theorem mapM_lookup_err : ∀ ts : List (List Char),
    (∃ t ∈ ts, List.lookup t feedback_map = none) →
    ∃ e, ts.mapM lookup_feedback_tok = Except.error e := by
  intro ts
  induction ts with
  | nil => rintro ⟨t, ht, -⟩; simp at ht
  | cons t ts ih =>
    rintro ⟨u, hu, hnone⟩
    rw [List.mapM_cons]
    rcases List.mem_cons.1 hu with rfl | humem
    · refine ⟨"Invalid feedback token", ?_⟩
      rw [show lookup_feedback_tok u = Except.error "Invalid feedback token"
        from by simp [lookup_feedback_tok, hnone]]
      rfl
    · cases hlk : List.lookup t feedback_map with
      | none =>
        refine ⟨"Invalid feedback token", ?_⟩
        rw [show lookup_feedback_tok t =
            Except.error "Invalid feedback token" from by
          simp [lookup_feedback_tok, hlk]]
        rfl
      | some v =>
        obtain ⟨e, he⟩ := ih ⟨u, humem, hnone⟩
        refine ⟨e, ?_⟩
        rw [show lookup_feedback_tok t = Except.ok v from by
          simp [lookup_feedback_tok, hlk]]
        simp only [he]
        rfl

theorem parse_feedback_ok_case (s : List Char) (L : List (List Char))
    (h : (normalize_feedback_str s).mapM lookup_feedback_tok = Except.ok L) :
    parse_feedback s = pack_feedback L := by
  unfold parse_feedback
  rw [h]

theorem parse_feedback_err_case (s : List Char) (e : String)
    (h : (normalize_feedback_str s).mapM lookup_feedback_tok =
      Except.error e) :
    parse_feedback s = Except.error e := by
  unfold parse_feedback
  rw [h]

theorem colorCode_lt (t : List Char) : colorCode t < 4 := by
  unfold colorCode
  split_ifs <;> omega

theorem orchain_pack2_fin : ∀ c0 c1 c2 c3 c4 : Fin 4,
    (((((0 : ℕ) ||| ((c0 : ℕ) <<< (2 * (4 - 0)))) |||
      ((c1 : ℕ) <<< (2 * (4 - 1)))) ||| ((c2 : ℕ) <<< (2 * (4 - 2)))) |||
      ((c3 : ℕ) <<< (2 * (4 - 3)))) ||| ((c4 : ℕ) <<< (2 * (4 - 4))) =
    pack2 [(c0 : ℕ), c1, c2, c3, c4] := by decide

theorem parse_fold_eq (f0 f1 f2 f3 f4 : List Char) :
    (List.range 5).foldl (fun acc i =>
      if [f0, f1, f2, f3, f4].getD i [] = "green".toList then
        acc ||| (2 <<< (2 * (4 - i)))
      else if [f0, f1, f2, f3, f4].getD i [] = "yellow".toList then
        acc ||| (1 <<< (2 * (4 - i)))
      else acc) 0 =
    pack2 [colorCode f0, colorCode f1, colorCode f2, colorCode f3,
      colorCode f4] := by
  have hstep : ∀ (acc i : ℕ) (t : List Char),
      (if t = "green".toList then acc ||| (2 <<< (2 * (4 - i)))
       else if t = "yellow".toList then acc ||| (1 <<< (2 * (4 - i)))
       else acc) = acc ||| (colorCode t <<< (2 * (4 - i))) := by
    intro acc i t
    unfold colorCode
    split_ifs <;> simp [Nat.zero_shiftLeft]
  rw [range5_eq]
  simp only [List.foldl_cons, List.foldl_nil, List.getD_cons_zero,
    List.getD_cons_succ]
  simp only [hstep]
  exact orchain_pack2_fin ⟨colorCode f0, colorCode_lt f0⟩
    ⟨colorCode f1, colorCode_lt f1⟩ ⟨colorCode f2, colorCode_lt f2⟩
    ⟨colorCode f3, colorCode_lt f3⟩ ⟨colorCode f4, colorCode_lt f4⟩

theorem pack_feedback_five (f0 f1 f2 f3 f4 : List Char) :
    pack_feedback [f0, f1, f2, f3, f4] =
      Except.ok (pack2 [colorCode f0, colorCode f1, colorCode f2,
        colorCode f3, colorCode f4]) := by
  unfold pack_feedback
  rw [if_pos (show ([f0, f1, f2, f3, f4] : List (List Char)).length = 5
    from rfl), parse_fold_eq]

theorem colorCode_lookup (t : List Char) (ht : t ∈ feedback_vocab) :
    colorCode ((List.lookup t feedback_map).getD []) = tokCode t := by
  fin_cases ht <;> rfl

/-- C5: `parse_feedback` succeeds exactly when the input — stripped,
lowercased, commas replaced by spaces, and split on whitespace — consists of
exactly five tokens from the vocabulary {g, y, b, gray, green, yellow};
otherwise it returns an error (`ValueError`); on success every two-bit field
of the returned pattern encodes its token with green = `10`, yellow = `01`,
gray = `00`, most significant position first. -/
theorem claim_C5 (s : List Char) :
    ((∃ v, parse_feedback s = Except.ok v) ↔
      ((normalize_feedback_str s).length = 5 ∧
        ∀ t ∈ normalize_feedback_str s, t ∈ feedback_vocab)) ∧
    (∀ v, parse_feedback s = Except.ok v → ∀ i, i < 5 →
      fbField i v = tokCode ((normalize_feedback_str s).getD i [])) := by
  by_cases hall : ∀ t ∈ normalize_feedback_str s,
      (List.lookup t feedback_map).isSome
  case neg =>
    have hnone : ∃ t ∈ normalize_feedback_str s,
        List.lookup t feedback_map = none := by
      push_neg at hall
      obtain ⟨t, ht, hn⟩ := hall
      exact ⟨t, ht, Option.not_isSome_iff_eq_none.1 (by simpa using hn)⟩
    obtain ⟨e, he⟩ := mapM_lookup_err _ hnone
    have hparse := parse_feedback_err_case s e he
    constructor
    · constructor
      · rintro ⟨v, hv⟩
        rw [hparse] at hv
        exact absurd hv (by simp)
      · rintro ⟨-, hvocab⟩
        obtain ⟨t, ht, hn⟩ := hnone
        have hsome := (lookup_isSome_iff t).2 (hvocab t ht)
        rw [hn] at hsome
        exact absurd hsome (by simp)
    · intro v hv
      rw [hparse] at hv
      exact absurd hv (by simp)
  case pos =>
    have hok := mapM_lookup_ok _ hall
    have hparse := parse_feedback_ok_case s _ hok
    by_cases hlen : (normalize_feedback_str s).length = 5
    case neg =>
      have hfail : pack_feedback ((normalize_feedback_str s).map
          (fun t => (List.lookup t feedback_map).getD [])) =
          Except.error "Feedback must consist of exactly 5 tokens." := by
        unfold pack_feedback
        rw [if_neg (by simpa using hlen)]
      rw [hfail] at hparse
      constructor
      · constructor
        · rintro ⟨v, hv⟩
          rw [hparse] at hv
          exact absurd hv (by simp)
        · rintro ⟨hl, -⟩
          exact absurd hl hlen
      · intro v hv
        rw [hparse] at hv
        exact absurd hv (by simp)
    case pos =>
      obtain ⟨t0, t1, t2, t3, t4, hts⟩ : ∃ t0 t1 t2 t3 t4,
          normalize_feedback_str s = [t0, t1, t2, t3, t4] := by
        have hgen : ∀ (L : List (List Char)), L.length = 5 →
            ∃ t0 t1 t2 t3 t4, L = [t0, t1, t2, t3, t4] := by
          intro L hL
          match L, hL with
          | [a, b, c, d, e], _ => exact ⟨a, b, c, d, e, rfl⟩
        exact hgen _ hlen
      rw [hts] at hparse
      simp only [List.map_cons, List.map_nil] at hparse
      rw [pack_feedback_five] at hparse
      have hvocab : ∀ t ∈ normalize_feedback_str s, t ∈ feedback_vocab :=
        fun t ht => (lookup_isSome_iff t).1 (hall t ht)
      constructor
      · exact iff_of_true ⟨_, hparse⟩ ⟨hlen, hvocab⟩
      · intro v hv i hi
        rw [hparse] at hv
        have hveq := (Except.ok.inj hv).symm
        subst hveq
        rw [fbField_pack2
          [colorCode ((List.lookup t0 feedback_map).getD []),
           colorCode ((List.lookup t1 feedback_map).getD []),
           colorCode ((List.lookup t2 feedback_map).getD []),
           colorCode ((List.lookup t3 feedback_map).getD []),
           colorCode ((List.lookup t4 feedback_map).getD [])] rfl (by
          intro x hx
          simp only [List.mem_cons, List.not_mem_nil, or_false] at hx
          rcases hx with rfl | rfl | rfl | rfl | rfl <;>
            exact colorCode_lt _) hi]
        rw [hts]
        have hv0 := hvocab t0 (by rw [hts]; simp)
        have hv1 := hvocab t1 (by rw [hts]; simp)
        have hv2 := hvocab t2 (by rw [hts]; simp)
        have hv3 := hvocab t3 (by rw [hts]; simp)
        have hv4 := hvocab t4 (by rw [hts]; simp)
        interval_cases i <;>
          simp [colorCode_lookup, hv0, hv1, hv2, hv3, hv4]

theorem claim_C5_witness :
    ((∃ v, parse_feedback "g y b b g".toList = Except.ok v) ↔
      ((normalize_feedback_str "g y b b g".toList).length = 5 ∧
        ∀ t ∈ normalize_feedback_str "g y b b g".toList,
          t ∈ feedback_vocab)) ∧
    (∀ v, parse_feedback "g y b b g".toList = Except.ok v → ∀ i, i < 5 →
      fbField i v =
        tokCode ((normalize_feedback_str "g y b b g".toList).getD i [])) :=
  claim_C5 "g y b b g".toList

theorem get_feedback_cached_spec (cache : FeedbackCache) (g t : Word)
    (h : CacheWF cache) :
    (get_feedback_cached cache g t).1 = get_feedback g t ∧
      CacheWF (get_feedback_cached cache g t).2 := by
  unfold get_feedback_cached
  cases hlk : List.lookup (g, t) cache with
  | some v =>
    exact ⟨h g t v hlk, h⟩
  | none =>
    refine ⟨rfl, ?_⟩
    intro g' t' v' hv'
    rw [List.lookup_cons] at hv'
    cases hb : (((g', t') : Word × Word) == (g, t)) with
    | true =>
      rw [hb] at hv'
      simp only [] at hv'
      have hp : (g', t') = ((g, t) : Word × Word) := eq_of_beq hb
      injection hp with h1 h2
      subst h1
      subst h2
      exact (Option.some.inj hv').symm
    | false =>
      rw [hb] at hv'
      simp only [] at hv'
      exact h g' t' v' hv'

/-- C7: the memoized `get_feedback` is referentially transparent — for any
history of calls starting from the empty cache, every returned value equals
the pure feedback function of that call's `(guess, target)` pair alone,
unaffected by the earlier calls. -/
theorem claim_C7 (calls : List (Word × Word)) :
    (run_feedback_calls [] calls).1 =
      calls.map (fun c => get_feedback c.1 c.2) := by
  have hgen : ∀ (cs : List (Word × Word)) (cache : FeedbackCache),
      CacheWF cache →
      (run_feedback_calls cache cs).1 =
        cs.map (fun c => get_feedback c.1 c.2) ∧
      CacheWF (run_feedback_calls cache cs).2 := by
    intro cs
    induction cs with
    | nil => exact fun cache h => ⟨rfl, h⟩
    | cons c cs ih =>
      intro cache h
      obtain ⟨h1, h2⟩ := get_feedback_cached_spec cache c.1 c.2 h
      obtain ⟨ih1, ih2⟩ := ih (get_feedback_cached cache c.1 c.2).2 h2
      constructor
      · show (get_feedback_cached cache c.1 c.2).1 ::
          (run_feedback_calls (get_feedback_cached cache c.1 c.2).2 cs).1 =
          (c :: cs).map (fun c => get_feedback c.1 c.2)
        rw [h1, ih1]
        rfl
      · show CacheWF
          (run_feedback_calls (get_feedback_cached cache c.1 c.2).2 cs).2
        exact ih2
  exact (hgen calls [] (fun g t v hv => by simp at hv)).1

/-- C6 counterexample: when the entropy file exists but is corrupt while the
stored fingerprint matches the pool, `get_initial_entropy` does not treat
the situation as a cache miss — the unpickling error propagates and the
call fails instead of recomputing. -/
theorem claim_C6_counterexample :
    get_initial_entropy ["aaaaa".toList]
      ⟨some (compute_wordlist_hash ["aaaaa".toList]), some none⟩ =
      Except.error "UnpicklingError" := by
  unfold get_initial_entropy
  rw [if_pos (by decide)]
  rfl

/-- C6 (amended): whenever the fingerprint is missing or differs from the
current pool's hash, or the entropy table file is missing — though not when
a corrupt table sits beside a matching fingerprint — `get_initial_entropy`
does not fail: it recomputes the full table over the pool, rewrites both the
table and the fingerprint, and returns the table. -/
theorem claim_C6_amended (word_list : List Word) (fs : FS)
    (h : is_entropy_cache_valid word_list fs = false) :
    get_initial_entropy word_list fs =
      Except.ok (compute_and_save_initial_entropy word_list fs) ∧
    (compute_and_save_initial_entropy word_list fs).1 =
      word_list.map (fun guess => (guess, calculate_entropy guess word_list)) ∧
    (compute_and_save_initial_entropy word_list fs).2.hashFile =
      some (compute_wordlist_hash word_list) ∧
    (compute_and_save_initial_entropy word_list fs).2.entropyFile =
      some (some (compute_and_save_initial_entropy word_list fs).1) := by
  refine ⟨?_, rfl, rfl, rfl⟩
  unfold get_initial_entropy
  rw [if_neg (by simp [h])]

theorem claim_C6_witness :
    is_entropy_cache_valid ["aaaaa".toList] ⟨none, none⟩ = false ∧
    (get_initial_entropy ["aaaaa".toList] ⟨none, none⟩ =
      Except.ok (compute_and_save_initial_entropy ["aaaaa".toList]
        ⟨none, none⟩) ∧
    (compute_and_save_initial_entropy ["aaaaa".toList] ⟨none, none⟩).1 =
      ["aaaaa".toList].map (fun guess =>
        (guess, calculate_entropy guess ["aaaaa".toList])) ∧
    (compute_and_save_initial_entropy ["aaaaa".toList] ⟨none, none⟩).2.hashFile =
      some (compute_wordlist_hash ["aaaaa".toList]) ∧
    (compute_and_save_initial_entropy ["aaaaa".toList] ⟨none, none⟩).2.entropyFile =
      some (some (compute_and_save_initial_entropy ["aaaaa".toList]
        ⟨none, none⟩).1)) :=
  ⟨by decide, claim_C6_amended ["aaaaa".toList] ⟨none, none⟩ (by decide)⟩

